import Mathlib

/-!
# Verification of stormbench.py (rendezvous-and-collection core)

Shallow embedding of the coordination, parsing, aggregation and ledger logic
of `stormbench.py`.  Strings are Lean `String`s (lists of characters), Python
floats are modelled as exact rationals `ℚ`, Python dicts are association
lists in insertion order with last-write-wins update, wall-clock time is an
explicit rational parameter, and the shared Redis store is an explicit
function argument (one store snapshot per polling sweep).  Code that can
raise a Python exception is modelled in `Except Unit`.
-/

namespace Stormbench

/-- A Python dict with string keys, in insertion order. -/
abbrev Dict := List (String × String)

abbrev WorkerId := String

/-! ## Python string primitives -/

/-- Python `s.split(sep)` for a one-character separator: non-collapsing split,
`"".split(c) = [""]`. -/
def pySplit (c : Char) : List Char → List (List Char)
  | [] => [[]]
  | x :: xs =>
    let r := pySplit c xs
    if x = c then [] :: r
    else
      match r with
      | [] => [[x]]
      | h :: t => (x :: h) :: t

/-- Python `s.strip()`: remove leading and trailing whitespace. -/
def pyStrip (l : List Char) : List Char :=
  ((l.dropWhile Char.isWhitespace).reverse.dropWhile Char.isWhitespace).reverse

/-- Index of the first occurrence of `c`, as in Python `s.find(c)` (but
`none` instead of `-1` when absent). -/
def pyFindIdx (c : Char) : List Char → Option Nat
  | [] => none
  | x :: xs => if x = c then some 0 else (pyFindIdx c xs).map (· + 1)

/-! ## Python dict operations on association lists -/

/-- `d[k] = v` on a Python dict: overwrite in place if the key exists
(last write wins), otherwise append at the end (insertion order). -/
def dictInsert {β : Type} (d : List (String × β)) (k : String) (v : β) :
    List (String × β) :=
  if d.any (fun kv => kv.1 == k) then
    d.map (fun kv => if kv.1 == k then (k, v) else kv)
  else d ++ [(k, v)]

/-- `d.get(k)` returning `none` when absent. -/
def dictGet? {β : Type} (d : List (String × β)) (k : String) : Option β :=
  (d.find? (fun kv => kv.1 == k)).map (·.2)

/-- `d.get(k, dflt)`. -/
def dictGetD {β : Type} (d : List (String × β)) (k : String) (dflt : β) : β :=
  (dictGet? d k).getD dflt

/-! ## `RedisManager.parse_ab_result` -/

/-- One step of the dict comprehension in `parse_ab_result`: a line is kept
exactly when `line.find(':') > 0`; it is then split at its first colon and
both sides are stripped. -/
def parseLine (d : Dict) (line : List Char) : Dict :=
  match pyFindIdx ':' line with
  | none => d
  | some i =>
    if 0 < i then
      dictInsert d (String.mk (pyStrip (line.take i)))
        (String.mk (pyStrip (line.drop (i + 1))))
    else d

/-- `RedisManager.parse_ab_result`:
`dict([[f.strip() for f in line.split(':', 1)] for line in
text.replace('\r', '').split('\n') if line.find(':') > 0])`. -/
def parse_ab_result (text : String) : Dict :=
  (pySplit '\n' (text.toList.filter (fun c => c ≠ '\r'))).foldl parseLine []

/-! ## Numeric and date parsing used by `print_results` -/

/-- Decimal digit run to a natural number. -/
def digitsToNat (ds : List Char) : Nat :=
  ds.foldl (fun a c => 10 * a + (c.toNat - 48)) 0

/-- Split a maximal leading digit run from the rest. -/
def readDigits (l : List Char) : List Char × List Char :=
  (l.takeWhile Char.isDigit, l.dropWhile Char.isDigit)

/-- Mantissa part of Python `float(str)`: `digits [. digits]` or `. digits`;
fails when no digit is present. -/
def pyFloatMant (l : List Char) : Option (ℚ × List Char) :=
  let p := readDigits l
  let q : List Char × List Char :=
    match p.2 with
    | '.' :: rest => readDigits rest
    | _ => ([], p.2)
  if p.1.isEmpty ∧ q.1.isEmpty then none
  else some ((digitsToNat p.1 : ℚ) + (digitsToNat q.1 : ℚ) / (10 : ℚ) ^ q.1.length, q.2)

/-- Exponent digits (with optional sign) of Python `float(str)`. -/
def pyFloatExpDigits (l : List Char) : Option (ℤ × List Char) :=
  let p : ℤ × List Char :=
    match l with
    | '+' :: r => (1, r)
    | '-' :: r => (-1, r)
    | _ => (1, l)
  let q := readDigits p.2
  if q.1.isEmpty then none else some (p.1 * (digitsToNat q.1 : ℤ), q.2)

/-- Optional exponent part of Python `float(str)`. -/
def pyFloatExp (l : List Char) : Option (ℤ × List Char) :=
  match l with
  | 'e' :: rest => pyFloatExpDigits rest
  | 'E' :: rest => pyFloatExpDigits rest
  | _ => some (0, l)

/-- Python `float(s)` on the decimal-literal fragment (sign, digits,
optional fraction, optional exponent), as an exact rational; `none` models
the `ValueError` raised on any other input. -/
def pyFloat? (s : List Char) : Option ℚ :=
  let l := pyStrip s
  let p : ℚ × List Char :=
    match l with
    | '+' :: r => (1, r)
    | '-' :: r => (-1, r)
    | _ => (1, l)
  match pyFloatMant p.2 with
  | none => none
  | some m =>
    match pyFloatExp m.2 with
    | none => none
    | some e => if e.2.isEmpty then some (p.1 * m.1 * (10 : ℚ) ^ e.1) else none

/-- Consume a 1–2 digit number whose value lies in `[lo, hi]`. -/
def readNum2 (lo hi : Nat) (l : List Char) : Option (List Char) :=
  let p := readDigits l
  if p.1.length = 0 ∨ 2 < p.1.length then none
  else if lo ≤ digitsToNat p.1 ∧ digitsToNat p.1 ≤ hi then some p.2 else none

/-- Consume one expected literal character. -/
def readLit (c : Char) : List Char → Option (List Char)
  | [] => none
  | x :: xs => if x = c then some xs else none

/-- `some l` when `p` holds, else `none`. -/
def guardO (p : Prop) [Decidable p] (l : List Char) : Option (List Char) :=
  if p then some l else none

/-- Whether `datetime.strptime(s[:26], '%Y-%m-%d %H:%M:%S %f')` succeeds:
4-digit year, month 1–12, day 1–31, hour 0–23, minute 0–59, second 0–61
(each 1–2 digits), 1–6 fractional digits, with nothing left over.  Only
success or failure (a `ValueError`) is observable in the final summary, so
the datetime value itself is not modelled. -/
def strptime26ok (s : List Char) : Bool :=
  let t := s.take 26
  (let p := readDigits t
   guardO (p.1.length = 4) p.2 >>= readLit '-' >>= readNum2 1 12 >>=
     readLit '-' >>= readNum2 1 31 >>= readLit ' ' >>= readNum2 0 23 >>=
     readLit ':' >>= readNum2 0 59 >>= readLit ':' >>= readNum2 0 61 >>=
     readLit ' ' >>= (fun r =>
       let q := readDigits r
       guardO (1 ≤ q.1.length ∧ q.1.length ≤ 6 ∧ q.2.isEmpty = true) [])).isSome

/-! ## `RedisManager.print_results` -/

/-- The four running totals printed at the end of `print_results`. -/
structure Summary where
  total_bit_rate : ℚ
  total_req_rate : ℚ
  valid_result_count : Nat
  invalid_result_count : Nat
  deriving DecidableEq, Repr

/-- The presence test on line 365 of the source:
`start_time_text and end_time_text and ' ' in rate_text and ' ' in rps_text`. -/
def validCond (result : Dict) : Bool :=
  (dictGetD result "Start-Time" "" != "") &&
  (dictGetD result "End-Time" "" != "") &&
  (dictGetD result "Transfer rate" "").toList.contains ' ' &&
  (dictGetD result "Requests per second" "").toList.contains ' '

/-- `s.split(' ', 1)[0]`: the token before the first space. -/
def splitFirstToken (s : String) : List Char :=
  s.toList.takeWhile (fun c => c ≠ ' ')

/-- The body of the `for key, result in results.items()` loop of
`print_results`, for one entry: either a new accumulator, or
`Except.error ()` when `datetime.strptime` / `float` raises. -/
def processEntry (acc : Summary) (result : Dict) : Except Unit Summary :=
  if validCond result then
    if strptime26ok (dictGetD result "Start-Time" "").toList then
      if strptime26ok (dictGetD result "End-Time" "").toList then
        match pyFloat? (splitFirstToken (dictGetD result "Transfer rate" "")) with
        | none => Except.error ()
        | some kbyte_rate =>
          match pyFloat? (splitFirstToken (dictGetD result "Requests per second" "")) with
          | none => Except.error ()
          | some req_rate =>
            Except.ok { acc with
              total_bit_rate := acc.total_bit_rate + kbyte_rate * 1024 * 8,
              total_req_rate := acc.total_req_rate + req_rate,
              valid_result_count := acc.valid_result_count + 1 }
      else Except.error ()
    else Except.error ()
  else Except.ok { acc with invalid_result_count := acc.invalid_result_count + 1 }

instance {ε α : Type} [DecidableEq ε] [DecidableEq α] : DecidableEq (Except ε α)
  | .ok a, .ok b => decidable_of_iff (a = b) (by simp)
  | .ok _, .error _ => isFalse (by simp)
  | .error _, .ok _ => isFalse (by simp)
  | .error e, .error f => decidable_of_iff (e = f) (by simp)

/-- `RedisManager.print_results`: fold the loop body over the result map in
iteration order; an uncaught exception in any entry aborts the whole fold. -/
def print_results (results : List (String × Dict)) : Except Unit Summary :=
  results.foldlM (fun acc kv => processEntry acc kv.2) ⟨0, 0, 0, 0⟩

/-- Line 381: `total_bit_rate/1024/1024/valid_result_count if
valid_result_count else 0.0` (printed as Mbit/s). -/
def average_transfer_rate (s : Summary) : ℚ :=
  if s.valid_result_count ≠ 0 then
    s.total_bit_rate / 1024 / 1024 / (s.valid_result_count : ℚ)
  else 0

/-- Line 383: `total_req_rate/valid_result_count if valid_result_count
else 0.0`. -/
def average_request_rate (s : Summary) : ℚ :=
  if s.valid_result_count ≠ 0 then
    s.total_req_rate / (s.valid_result_count : ℚ)
  else 0

/-- Classification of one entry by the loop body: `none` = the entry raises;
`some none` = the entry is counted invalid; `some (some (b, q))` = the entry
is counted valid and contributes bit rate `b` and request rate `q`. -/
def entryOutcome (result : Dict) : Option (Option (ℚ × ℚ)) :=
  if validCond result then
    if strptime26ok (dictGetD result "Start-Time" "").toList then
      if strptime26ok (dictGetD result "End-Time" "").toList then
        match pyFloat? (splitFirstToken (dictGetD result "Transfer rate" "")) with
        | none => none
        | some kbyte_rate =>
          match pyFloat? (splitFirstToken (dictGetD result "Requests per second" "")) with
          | none => none
          | some req_rate => some (some (kbyte_rate * 1024 * 8, req_rate))
      else none
    else none
  else some none

/-- Bit rates contributed by the entries counted valid, in iteration order. -/
def validRates (results : List (String × Dict)) : List ℚ :=
  results.filterMap (fun kv =>
    match entryOutcome kv.2 with
    | some (some p) => some p.1
    | _ => none)

/-- Request rates contributed by the entries counted valid. -/
def validReqRates (results : List (String × Dict)) : List ℚ :=
  results.filterMap (fun kv =>
    match entryOutcome kv.2 with
    | some (some p) => some p.2
    | _ => none)

/-! ## `RedisManager.wait_for_clients`

The registration state of the shared store is sampled once per polling
sweep: `σ k id = true` means the registration field of `id` is visible on
the store during sweep `k`.  The inner
`for client_instance_id in remaining_clients: ... remaining_clients.remove(...)`
loop mutates the list being iterated, so it is modelled exactly as CPython
executes it: by index, where `remove` deletes the first occurrence and the
iteration index advances regardless. -/

/-- One sweep of the inner `for` loop of `wait_for_clients`, starting at
iteration index `i`. -/
def pyForRemove (isReg : WorkerId → Bool) (lst : List WorkerId) (i : Nat) :
    List WorkerId :=
  if h : i < lst.length then
    let x := lst.get ⟨i, h⟩
    if isReg x then pyForRemove isReg (lst.erase x) (i + 1)
    else pyForRemove isReg lst (i + 1)
  else lst
termination_by lst.length - i
decreasing_by
  all_goals
    have hx : lst.get ⟨i, h⟩ ∈ lst := lst.get_mem _ _
    have hlen := List.length_erase_of_mem hx
    omega

/-- `RedisManager.wait_for_clients`, with an explicit fuel bound on the
number of `while remaining_clients:` iterations; `some j` means the call
returned after `j` sweeps, `none` means it was still polling when the fuel
ran out.  `k` is the index of the current sweep. -/
def wait_for_clients (σ : Nat → WorkerId → Bool) :
    Nat → Nat → List WorkerId → Option Nat
  | 0, _, _ => none
  | fuel + 1, k, remaining =>
    if remaining.isEmpty then some k
    else wait_for_clients σ fuel (k + 1) (pyForRemove (σ k) remaining 0)

/-- The remaining-clients list after `j` complete sweeps starting at sweep
index `k` (an analysis device for the polling loop). -/
def iterRem (σ : Nat → WorkerId → Bool) (k : Nat) (r : List WorkerId) :
    Nat → List WorkerId
  | 0 => r
  | j + 1 => pyForRemove (σ (k + j)) (iterRem σ k r j) 0

/-! ## `RedisManager.wait_for_results`

The store maps a worker id to `some rawText` once that worker has submitted
a result (`hexists` / `hget`), again sampled once per sweep. -/

/-- One sweep of the inner `for` loop of `wait_for_results`: on a hit, the
id's raw text is fetched, parsed and stored in the `results` dict, and the
id is removed from the remaining list. -/
def pyForRemoveRes (store : WorkerId → Option String) (lst : List WorkerId)
    (acc : List (WorkerId × Dict)) (i : Nat) :
    List WorkerId × List (WorkerId × Dict) :=
  if h : i < lst.length then
    let x := lst.get ⟨i, h⟩
    match store x with
    | some raw =>
      pyForRemoveRes store (lst.erase x)
        (dictInsert acc x (parse_ab_result raw)) (i + 1)
    | none => pyForRemoveRes store lst acc (i + 1)
  else (lst, acc)
termination_by lst.length - i
decreasing_by
  all_goals
    have hx : lst.get ⟨i, h⟩ ∈ lst := lst.get_mem _ _
    have hlen := List.length_erase_of_mem hx
    omega

/-- `RedisManager.wait_for_results`, with fuel as in `wait_for_clients`;
`some results` is the dict returned once no client remains outstanding. -/
def wait_for_results (σ : Nat → WorkerId → Option String) :
    Nat → Nat → List WorkerId → List (WorkerId × Dict) →
    Option (List (WorkerId × Dict))
  | 0, _, _, _ => none
  | fuel + 1, k, remaining, results =>
    if remaining.isEmpty then some results
    else
      let p := pyForRemoveRes (σ k) remaining results 0
      wait_for_results σ fuel (k + 1) p.1 p.2

/-! ## `PriceManager` (the fleet ledger)

`datetime.now()` is an explicit rational timestamp argument (seconds); the
pricing table downloaded in `_load_aws_prices` is the `_cached_prices`
field, region → instance type → hourly USD price. -/

structure InstanceRegistration where
  id : String
  type : String
  started : ℚ
  stopped : Option ℚ
  elapsed : ℚ
  price : ℚ
  deriving DecidableEq, Repr

structure PriceManager where
  region : String
  _instances : List (String × InstanceRegistration)
  _costs : List InstanceRegistration
  _cached_prices : List (String × List (String × ℚ))
  deriving DecidableEq, Repr

/-- `PriceManager.get_instance_price` on an instance-type string:
`self._cached_prices.get(self.region, {}).get(instance, 0.0)`. -/
def PriceManager.get_instance_price (pm : PriceManager) (instanceType : String) : ℚ :=
  dictGetD (dictGetD pm._cached_prices pm.region []) instanceType 0

/-- `PriceManager.track`: open a ledger record for instance `iid` of type
`ity` at time `now`. -/
def PriceManager.track (pm : PriceManager) (now : ℚ) (iid ity : String) :
    PriceManager :=
  let reg : InstanceRegistration :=
    { id := iid, type := ity, started := now, stopped := none,
      elapsed := 0, price := 0 }
  { pm with _instances := dictInsert pm._instances iid reg }

/-- `PriceManager.untrack` on an id string: a no-op unless the id has an
open record; otherwise the record is deleted from `_instances` and appended
to `_costs` with `elapsed = now - started` and
`price = elapsed * get_instance_price(type) / 3600`. -/
def PriceManager.untrack (pm : PriceManager) (now : ℚ) (iid : String) :
    PriceManager :=
  match dictGet? pm._instances iid with
  | none => pm
  | some reg =>
    let elapsed := now - reg.started
    let price := elapsed * pm.get_instance_price reg.type / 3600
    let closed : InstanceRegistration :=
      { id := reg.id, type := reg.type, started := reg.started,
        stopped := some now, elapsed := elapsed, price := price }
    { pm with
      _instances := pm._instances.filter (fun kv => kv.1 != iid),
      _costs := pm._costs ++ [closed] }

/-! ## Concrete sample data used in witnesses and counterexamples -/

/-- The worker-report text from §8 of the spec. -/
def sampleText : String :=
  "Start-Time: 2012-12-31 23:59:59 000000\nEnd-Time: 2013-01-01 00:00:05 000000\nTransfer rate: 1130.58 [Kbytes/sec] received\n"

/-- A parsed record with the three fields the spec calls required, but
without a `Requests per second` field. -/
def recMissingRps : Dict :=
  [("Start-Time", "2012-12-31 23:59:59 000000"),
   ("End-Time", "2013-01-01 00:00:05 000000"),
   ("Transfer rate", "1130.58 [Kbytes/sec] received")]

/-- A parsed record passing the presence check whose transfer-rate value
has a non-numeric leading token. -/
def recBadRate : Dict :=
  [("Start-Time", "2012-12-31 23:59:59 000000"),
   ("End-Time", "2013-01-01 00:00:05 000000"),
   ("Transfer rate", "abc [Kbytes/sec] received"),
   ("Requests per second", "2.73 [#/sec] (mean)")]

/-- A registration store on which worker `w` is registered from the start. -/
def regStoreAll : Nat → WorkerId → Bool := fun _ _ => true

/-- A ledger with one priced instance type in its cached pricing table. -/
def pmSample : PriceManager :=
  { region := "eu-west-1", _instances := [], _costs := [],
    _cached_prices := [("eu-west-1", [("m1.small", 13 / 200)])] }

/-- A result store on which worker `w` has submitted `"Foo: Bar"`. -/
def resStoreA : Nat → WorkerId → Option String :=
  fun _ id => if id = "w" then some "Foo: Bar" else none

/-- A result store on which worker `w` has submitted a different raw text
with the same parse as `resStoreA`'s. -/
def resStoreB : Nat → WorkerId → Option String :=
  fun _ id => if id = "w" then some "Foo:  Bar " else none

/-! ## Helper lemmas: dicts -/

theorem dictInsert_of_not_mem {β : Type} {d : List (String × β)} {k : String}
    (v : β) (h : ∀ kv ∈ d, kv.1 ≠ k) : dictInsert d k v = d ++ [(k, v)] := by
  unfold dictInsert
  rw [if_neg]
  simp only [List.any_eq_true, beq_iff_eq, not_exists, not_and]
  intro kv hkv
  exact h kv hkv

theorem dictGet?_insert_self {β : Type} (d : List (String × β)) (k : String)
    (v : β) : dictGet? (dictInsert d k v) k = some v := by
  induction d with
  | nil => simp [dictInsert, dictGet?]
  | cons kv tl ih =>
    by_cases hk : kv.1 = k
    · have hany : (kv :: tl).any (fun kv => kv.1 == k) = true := by
        simp [List.any_cons, hk]
      simp [dictInsert, hany, dictGet?, hk]
    · by_cases htl : tl.any (fun kv => kv.1 == k) = true
      · have hany : (kv :: tl).any (fun kv => kv.1 == k) = true := by
          simp [List.any_cons, htl]
        have ih' := ih
        simp only [dictInsert, htl, if_pos] at ih'
        simp only [dictInsert, hany, if_pos, List.map_cons, if_neg,
          beq_iff_eq, hk, ite_false]
        simpa [dictGet?, hk] using ih'
      · have h2 : tl.any (fun kv => kv.1 == k) = false := by
          rw [Bool.eq_false_iff]
          exact htl
        have hany : (kv :: tl).any (fun kv => kv.1 == k) = false := by
          simp [List.any_cons, h2, hk]
        have ih' := ih
        simp only [dictInsert, htl, if_neg, Bool.false_eq_true,
          not_false_iff] at ih'
        simp only [dictInsert, hany, Bool.false_eq_true, if_neg,
          not_false_iff, List.cons_append]
        simpa [dictGet?, hk] using ih'

theorem mem_dictInsert {β : Type} {d : List (String × β)} {k : String}
    {v : β} {kv : String × β} (h : kv ∈ dictInsert d k v) :
    kv ∈ d ∨ kv = (k, v) := by
  unfold dictInsert at h
  by_cases hany : d.any (fun kv => kv.1 == k) = true
  · rw [if_pos hany] at h
    rcases List.mem_map.1 h with ⟨kv', hkv', heq⟩
    by_cases hk : kv'.1 = k
    · right
      rw [← heq]
      simp [hk]
    · left
      rw [← heq]
      simpa [hk] using hkv'
  · rw [if_neg hany] at h
    rcases List.mem_append.1 h with h1 | h1
    · exact Or.inl h1
    · right
      simpa using h1

theorem map_fst_dictInsert_of_not_mem {β : Type} {d : List (String × β)}
    {k : String} (v : β) (h : ∀ kv ∈ d, kv.1 ≠ k) :
    (dictInsert d k v).map Prod.fst = d.map Prod.fst ++ [k] := by
  rw [dictInsert_of_not_mem v h]
  simp

/-! ## Helper lemmas: the `print_results` loop body -/

theorem except_ok_bind {ε α β : Type} (a : α) (f : α → Except ε β) :
    (Except.ok a >>= f) = f a := rfl

theorem except_error_bind {ε α β : Type} (e : ε) (f : α → Except ε β) :
    ((Except.error e : Except ε α) >>= f) = Except.error e := rfl

/-- The loop body is determined by `entryOutcome`. -/
theorem processEntry_eq (acc : Summary) (r : Dict) :
    processEntry acc r =
      match entryOutcome r with
      | none => Except.error ()
      | some none =>
        Except.ok { acc with invalid_result_count := acc.invalid_result_count + 1 }
      | some (some p) =>
        Except.ok { acc with
          total_bit_rate := acc.total_bit_rate + p.1,
          total_req_rate := acc.total_req_rate + p.2,
          valid_result_count := acc.valid_result_count + 1 } := by
  unfold processEntry entryOutcome
  split
  · split
    · split
      · split
        · rfl
        · split
          · rfl
          · rfl
      · rfl
    · rfl
  · rfl

/-- An entry is counted invalid exactly when the presence check fails. -/
theorem entryOutcome_invalid_iff (r : Dict) :
    entryOutcome r = some none ↔ validCond r = false := by
  unfold entryOutcome
  split
  next h =>
    simp only [h, Bool.true_eq_false, iff_false]
    split
    · split
      · split
        · simp
        · split
          · simp
          · simp
      · simp
    · simp
  next h =>
    simp only [Bool.not_eq_true] at h
    simp [h]

/-- Entries that the presence check rejects are exactly the ones that
increment the invalid counter. -/
theorem processEntry_invalid_iff (acc : Summary) (r : Dict) :
    validCond r = false ↔
      processEntry acc r =
        Except.ok { acc with invalid_result_count := acc.invalid_result_count + 1 } := by
  rw [processEntry_eq, ← entryOutcome_invalid_iff]
  cases ho : entryOutcome r with
  | none => simp
  | some o =>
    cases o with
    | none => simp
    | some p =>
      refine iff_of_false (by simp) ?_
      intro h
      simp only [Except.ok.injEq, Summary.mk.injEq] at h
      omega

/-- Shifting the invalid counter of the accumulator commutes with the
loop body. -/
theorem processEntry_shift_invalid (acc : Summary) (r : Dict) :
    processEntry { acc with invalid_result_count := acc.invalid_result_count + 1 } r =
      (processEntry acc r).map
        (fun s => { s with invalid_result_count := s.invalid_result_count + 1 }) := by
  rw [processEntry_eq, processEntry_eq]
  cases entryOutcome r with
  | none => rfl
  | some o =>
    cases o with
    | none => rfl
    | some p => rfl

/-- Folding the loop body from an accumulator with a shifted invalid
counter shifts the final invalid counter. -/
theorem foldlM_shift_invalid (l : List (String × Dict)) (acc : Summary) :
    List.foldlM (fun acc kv => processEntry acc kv.2)
        { acc with invalid_result_count := acc.invalid_result_count + 1 } l =
      (List.foldlM (fun acc kv => processEntry acc kv.2) acc l).map
        (fun s => { s with invalid_result_count := s.invalid_result_count + 1 }) := by
  induction l generalizing acc with
  | nil => rfl
  | cons kv tl ih =>
    rw [List.foldlM_cons, List.foldlM_cons, processEntry_shift_invalid]
    cases processEntry acc kv.2 with
    | error e => rfl
    | ok s =>
      simp only [Except.map_ok, except_ok_bind]
      exact ih s

/-- When every entry is processable, the fold is the accumulator plus the
component-wise totals of the valid entries. -/
theorem foldlM_processEntry_ok (l : List (String × Dict)) (acc : Summary)
    (h : ∀ kv ∈ l, entryOutcome kv.2 ≠ none) :
    List.foldlM (fun acc kv => processEntry acc kv.2) acc l =
      Except.ok
        { total_bit_rate := acc.total_bit_rate + (validRates l).sum,
          total_req_rate := acc.total_req_rate + (validReqRates l).sum,
          valid_result_count := acc.valid_result_count + (validRates l).length,
          invalid_result_count :=
            acc.invalid_result_count + (l.length - (validRates l).length) } := by
  induction l generalizing acc with
  | nil =>
    simp only [validRates, validReqRates, List.filterMap_nil, List.sum_nil,
      List.length_nil, List.foldlM_nil, add_zero, Nat.add_zero, Nat.zero_sub,
      Nat.sub_zero]
    rfl
  | cons kv tl ih =>
    have hkv : entryOutcome kv.2 ≠ none := h kv (List.mem_cons_self kv tl)
    have htl : ∀ kv ∈ tl, entryOutcome kv.2 ≠ none :=
      fun kv hm => h kv (List.mem_cons_of_mem _ hm)
    have hlen : (validRates tl).length ≤ tl.length :=
      List.length_filterMap_le _ _
    rw [List.foldlM_cons, processEntry_eq]
    cases ho : entryOutcome kv.2 with
    | none => exact absurd ho hkv
    | some o =>
      cases o with
      | none =>
        have hrates : validRates (kv :: tl) = validRates tl := by
          simp [validRates, List.filterMap_cons, ho]
        have hreqs : validReqRates (kv :: tl) = validReqRates tl := by
          simp [validReqRates, List.filterMap_cons, ho]
        simp only [except_ok_bind]
        rw [ih _ htl]
        simp only [hrates, hreqs, Except.ok.injEq, Summary.mk.injEq,
          List.length_cons]
        refine ⟨trivial, trivial, trivial, ?_⟩
        omega
      | some p =>
        have hrates : validRates (kv :: tl) = p.1 :: validRates tl := by
          simp [validRates, List.filterMap_cons, ho]
        have hreqs : validReqRates (kv :: tl) = p.2 :: validReqRates tl := by
          simp [validReqRates, List.filterMap_cons, ho]
        simp only [except_ok_bind]
        rw [ih _ htl]
        simp only [hrates, hreqs, Except.ok.injEq, Summary.mk.injEq,
          List.length_cons, List.sum_cons]
        refine ⟨by ring, by ring, by omega, by omega⟩

/-- An entry that raises aborts the whole fold. -/
theorem foldlM_processEntry_err (l : List (String × Dict)) (acc : Summary)
    (h : ∃ kv ∈ l, entryOutcome kv.2 = none) :
    List.foldlM (fun acc kv => processEntry acc kv.2) acc l =
      Except.error () := by
  induction l generalizing acc with
  | nil => simp at h
  | cons kv tl ih =>
    rw [List.foldlM_cons, processEntry_eq]
    cases ho : entryOutcome kv.2 with
    | none => rfl
    | some o =>
      have htl : ∃ kv ∈ tl, entryOutcome kv.2 = none := by
        rcases h with ⟨kv', hm, hout⟩
        rcases List.mem_cons.1 hm with rfl | hm'
        · exact absurd ho (by simp [hout])
        · exact ⟨kv', hm', hout⟩
      cases o with
      | none =>
        simp only [except_ok_bind]
        exact ih _ htl
      | some p =>
        simp only [except_ok_bind]
        exact ih _ htl

/-- Closed form of `print_results` when no entry raises. -/
theorem print_results_ok (l : List (String × Dict))
    (h : ∀ kv ∈ l, entryOutcome kv.2 ≠ none) :
    print_results l =
      Except.ok
        { total_bit_rate := (validRates l).sum,
          total_req_rate := (validReqRates l).sum,
          valid_result_count := (validRates l).length,
          invalid_result_count := l.length - (validRates l).length } := by
  unfold print_results
  rw [foldlM_processEntry_ok l ⟨0, 0, 0, 0⟩ h]
  simp

/-- `print_results` propagates the exception of any entry that raises. -/
theorem print_results_err (l : List (String × Dict))
    (h : ∃ kv ∈ l, entryOutcome kv.2 = none) :
    print_results l = Except.error () :=
  foldlM_processEntry_err l ⟨0, 0, 0, 0⟩ h

/-- The whole summary is invariant under permutation of the result map. -/
theorem print_results_perm (l l' : List (String × Dict)) (hp : l.Perm l') :
    print_results l = print_results l' := by
  by_cases h : ∀ kv ∈ l, entryOutcome kv.2 ≠ none
  · have h' : ∀ kv ∈ l', entryOutcome kv.2 ≠ none :=
      fun kv hkv => h kv (hp.mem_iff.2 hkv)
    rw [print_results_ok l h, print_results_ok l' h']
    have h1 : (validRates l).Perm (validRates l') := hp.filterMap _
    have h2 : (validReqRates l).Perm (validReqRates l') := hp.filterMap _
    rw [h1.sum_eq, h2.sum_eq, h1.length_eq, hp.length_eq]
  · push_neg at h
    rcases h with ⟨kv, hm, hout⟩
    rw [print_results_err l ⟨kv, hm, hout⟩,
      print_results_err l' ⟨kv, hp.mem_iff.1 hm, hout⟩]

/-! ## Claim theorems: the aggregator (C1, C4, C6, C7, C9) -/

/-- C1 (counterexample): a record containing a start timestamp, an end
timestamp and a throughput field — all three fields the claim lists — is
nevertheless counted invalid by `print_results` (valid count 0, invalid
count 1), so containing those three fields is not sufficient for validity. -/
theorem c1_counterexample :
    (dictGet? recMissingRps "Start-Time").isSome = true ∧
    (dictGet? recMissingRps "End-Time").isSome = true ∧
    (dictGet? recMissingRps "Transfer rate").isSome = true ∧
    print_results [("worker-1", recMissingRps)] = Except.ok ⟨0, 0, 0, 1⟩ := by
  decide

/-- C1 (amended): an entry increments the invalid counter exactly when the
presence check fails — nonempty `Start-Time`, nonempty `End-Time`, a space
in `Transfer rate` and a space in `Requests per second` — and such an entry
does not abort the aggregation: it contributes exactly one invalid count on
top of the aggregation of the remaining entries. -/
theorem c1_validity_amended (acc : Summary) (r : Dict) :
    (validCond r = false ↔
      processEntry acc r =
        Except.ok { acc with
          invalid_result_count := acc.invalid_result_count + 1 }) ∧
    (validCond r = false → ∀ (k : String) (l : List (String × Dict)),
      print_results ((k, r) :: l) =
        (print_results l).map
          (fun s => { s with
            invalid_result_count := s.invalid_result_count + 1 })) := by
  refine ⟨processEntry_invalid_iff acc r, fun h k l => ?_⟩
  have hstep : processEntry ⟨0, 0, 0, 0⟩ r = Except.ok ⟨0, 0, 0, 1⟩ :=
    (processEntry_invalid_iff ⟨0, 0, 0, 0⟩ r).1 h
  unfold print_results
  rw [List.foldlM_cons, hstep, except_ok_bind]
  exact foldlM_shift_invalid l ⟨0, 0, 0, 0⟩

/-- C1 (witness): the amended theorem applied to the three-field record. -/
theorem c1_witness :
    processEntry ⟨0, 0, 0, 0⟩ recMissingRps = Except.ok ⟨0, 0, 0, 1⟩ ∧
    print_results [("worker-1", recMissingRps)] =
      (print_results []).map
        (fun s => { s with
          invalid_result_count := s.invalid_result_count + 1 }) :=
  ⟨(c1_validity_amended ⟨0, 0, 0, 0⟩ recMissingRps).1.mp (by decide),
   (c1_validity_amended ⟨0, 0, 0, 0⟩ recMissingRps).2 (by decide) "worker-1" []⟩

/-- C4 (counterexample): on the spec's sample text, the parsed record is
counted invalid by the aggregator (valid count 0, invalid count 1, nothing
accumulated), not valid as the claim states: the record has no
`Requests per second` field. -/
theorem c4_counterexample :
    print_results [("worker-1", parse_ab_result sampleText)] =
      Except.ok ⟨0, 0, 0, 1⟩ := by
  decide

/-- C4 (amended): parsing the sample text yields exactly the fields
`Start-Time`, `End-Time` and `Transfer rate` with the trimmed values, and
the leading token of the throughput value parses to 1130.58, whose
canonical bit rate is 1130.58 × 1024 × 8 = 9261711.36 bits/s; but the
aggregator classifies the record as invalid (it lacks a
`Requests per second` field), so nothing is accumulated. -/
theorem c4_sample_parse :
    parse_ab_result sampleText =
      [("Start-Time", "2012-12-31 23:59:59 000000"),
       ("End-Time", "2013-01-01 00:00:05 000000"),
       ("Transfer rate", "1130.58 [Kbytes/sec] received")] ∧
    pyFloat? (splitFirstToken
        (dictGetD (parse_ab_result sampleText) "Transfer rate" "")) =
      some (113058 / 100 : ℚ) ∧
    (113058 / 100 : ℚ) * 1024 * 8 = 231542784 / 25 ∧
    validCond (parse_ab_result sampleText) = false ∧
    print_results [("worker-1", parse_ab_result sampleText)] =
      Except.ok ⟨0, 0, 0, 1⟩ := by
  refine ⟨by decide, ?_, by norm_num, by decide, by decide⟩
  have h0 : splitFirstToken
      (dictGetD (parse_ab_result sampleText) "Transfer rate" "") =
      "1130.58".toList := by decide
  rw [h0]
  have h1 : pyFloat? ("1130.58".toList) =
      some ((1 : ℚ) * (((1130 : Nat) : ℚ) + ((58 : Nat) : ℚ) / (10 : ℚ) ^ (2 : Nat)) *
        (10 : ℚ) ^ (0 : ℤ)) := rfl
  rw [h1]
  norm_num

/-- C6: aggregating the empty result map yields totals 0, valid count 0 and
invalid count 0, and both printed averages are 0 whenever the valid count
is 0 — the division by the valid count is guarded, so no division by zero
occurs. -/
theorem c6_empty_aggregate :
    print_results [] = Except.ok ⟨0, 0, 0, 0⟩ ∧
    ∀ s : Summary, s.valid_result_count = 0 →
      average_transfer_rate s = 0 ∧ average_request_rate s = 0 := by
  refine ⟨rfl, fun s h => ?_⟩
  simp [average_transfer_rate, average_request_rate, h]

/-- C6 (witness): the guarded averages at a zero valid count. -/
theorem c6_witness :
    average_transfer_rate ⟨5, 7, 0, 3⟩ = 0 ∧
    average_request_rate ⟨5, 7, 0, 3⟩ = 0 :=
  c6_empty_aggregate.2 ⟨5, 7, 0, 3⟩ rfl

/-- C7: when `print_results` returns a summary, its total bit rate is the
sum of the bit rates of the valid entries, its valid count is their number,
and the printed average is total / 1024 / 1024 / count; and the whole
result of `print_results` is unchanged under any permutation (iteration
order) of the result map. -/
theorem c7_aggregate_commutes (l l' : List (String × Dict)) (hp : l.Perm l') :
    print_results l = print_results l' ∧
    ∀ s, print_results l = Except.ok s →
      s.total_bit_rate = (validRates l).sum ∧
      s.total_req_rate = (validReqRates l).sum ∧
      s.valid_result_count = (validRates l).length ∧
      s.invalid_result_count = l.length - (validRates l).length ∧
      ((validRates l).length ≠ 0 →
        average_transfer_rate s =
          (validRates l).sum / 1024 / 1024 / ((validRates l).length : ℚ)) := by
  refine ⟨print_results_perm l l' hp, fun s hs => ?_⟩
  have hall : ∀ kv ∈ l, entryOutcome kv.2 ≠ none := by
    by_contra hc
    push_neg at hc
    rcases hc with ⟨kv, hm, hout⟩
    rw [print_results_err l ⟨kv, hm, hout⟩] at hs
    exact absurd hs (by simp)
  rw [print_results_ok l hall] at hs
  cases hs
  refine ⟨rfl, rfl, rfl, rfl, fun hn => ?_⟩
  simp [average_transfer_rate, hn]

/-- C7 (witness): the aggregate theorem applied to a singleton result map
whose entry is counted invalid. -/
theorem c7_witness :
    print_results [("worker-1", recMissingRps)] =
      print_results [("worker-1", recMissingRps)] ∧
    ∀ s, print_results [("worker-1", recMissingRps)] = Except.ok s →
      s.total_bit_rate = (validRates [("worker-1", recMissingRps)]).sum ∧
      s.total_req_rate = (validReqRates [("worker-1", recMissingRps)]).sum ∧
      s.valid_result_count = (validRates [("worker-1", recMissingRps)]).length ∧
      s.invalid_result_count =
        [("worker-1", recMissingRps)].length -
          (validRates [("worker-1", recMissingRps)]).length ∧
      ((validRates [("worker-1", recMissingRps)]).length ≠ 0 →
        average_transfer_rate s =
          (validRates [("worker-1", recMissingRps)]).sum / 1024 / 1024 /
            ((validRates [("worker-1", recMissingRps)]).length : ℚ)) :=
  c7_aggregate_commutes [("worker-1", recMissingRps)]
    [("worker-1", recMissingRps)] (List.Perm.refl _)

/-- C9: a record that passes the presence check but whose detailed values
are malformed — a timestamp not matching the expected format, or a
throughput / request-rate field whose leading token is not a number — makes
`print_results` raise (propagate an exception) instead of counting the
entry invalid and continuing with the remaining entries. -/
theorem c9_malformed_value_raises (l1 l2 : List (String × Dict)) (k : String)
    (r : Dict) (hv : validCond r = true)
    (hfail : strptime26ok (dictGetD r "Start-Time" "").toList = false ∨
      strptime26ok (dictGetD r "End-Time" "").toList = false ∨
      pyFloat? (splitFirstToken (dictGetD r "Transfer rate" "")) = none ∨
      pyFloat? (splitFirstToken (dictGetD r "Requests per second" "")) = none) :
    print_results (l1 ++ (k, r) :: l2) = Except.error () := by
  have hout : entryOutcome r = none := by
    unfold entryOutcome
    rw [if_pos hv]
    cases hst : strptime26ok (dictGetD r "Start-Time" "").toList with
    | false => rw [if_neg (by simp [hst])]
    | true =>
      rw [if_pos (by simp [hst])]
      cases het : strptime26ok (dictGetD r "End-Time" "").toList with
      | false => rw [if_neg (by simp [het])]
      | true =>
        rw [if_pos (by simp [het])]
        rcases hfail with h | h | h | h
        · rw [hst] at h
          exact absurd h (by simp)
        · rw [het] at h
          exact absurd h (by simp)
        · simp only [h]
        · cases hr : pyFloat? (splitFirstToken (dictGetD r "Transfer rate" "")) with
          | none => simp only [hr]
          | some kb => simp only [hr, h]
  apply print_results_err
  exact ⟨(k, r), by simp, hout⟩

/-- C9 (witness): a record with a non-numeric transfer-rate token makes the
whole aggregation raise. -/
theorem c9_witness :
    validCond recBadRate = true ∧
    print_results [("worker-1", recBadRate)] = Except.error () :=
  ⟨by decide,
   c9_malformed_value_raises [] [] "worker-1" recBadRate (by decide)
     (Or.inr (Or.inr (Or.inl (by decide))))⟩

/-! ## Helper lemmas: `pySplit` and per-line parsing -/

theorem string_toList_append (s t : String) :
    (s ++ t).toList = s.toList ++ t.toList := rfl

theorem pySplit_cons (c x : Char) (xs : List Char) :
    pySplit c (x :: xs) =
      if x = c then [] :: pySplit c xs
      else
        match pySplit c xs with
        | [] => [[x]]
        | h :: t => (x :: h) :: t := rfl

theorem pySplit_ne_nil (c : Char) (l : List Char) : pySplit c l ≠ [] := by
  cases l with
  | nil => simp [pySplit]
  | cons x xs =>
    rw [pySplit_cons]
    by_cases h : x = c
    · simp [h]
    · simp only [h, if_false, ite_false]
      cases pySplit c xs <;> simp

theorem pySplit_append (c : Char) (l1 l2 : List Char) :
    pySplit c (l1 ++ c :: l2) = pySplit c l1 ++ pySplit c l2 := by
  induction l1 with
  | nil => simp [pySplit]
  | cons x xs ih =>
    by_cases h : x = c
    · subst h
      simp only [List.cons_append]
      rw [pySplit_cons, pySplit_cons]
      simp [ih]
    · simp only [List.cons_append]
      rw [pySplit_cons, pySplit_cons]
      simp only [h, ite_false, if_false]
      rw [ih]
      have h1 := pySplit_ne_nil c xs
      cases hx : pySplit c xs with
      | nil => exact absurd hx h1
      | cons a b => simp

theorem pySplit_of_not_mem (c : Char) (l : List Char) (h : c ∉ l) :
    pySplit c l = [l] := by
  induction l with
  | nil => rfl
  | cons x xs ih =>
    have hx : x ≠ c := fun he => h (by simp [he])
    have hxs : c ∉ xs := fun hm => h (List.mem_cons_of_mem _ hm)
    rw [pySplit_cons]
    simp only [hx, ite_false, if_false]
    rw [ih hxs]

/-- A line without a colon, or with its first colon at position 0, is
dropped. -/
theorem parseLine_drop (d : Dict) (line : List Char)
    (h : pyFindIdx ':' line = none ∨ pyFindIdx ':' line = some 0) :
    parseLine d line = d := by
  unfold parseLine
  rcases h with h | h <;> rw [h]
  simp

theorem pyFindIdx_append_colon (pre post : List Char) (h : ':' ∉ pre) :
    pyFindIdx ':' (pre ++ ':' :: post) = some pre.length := by
  induction pre with
  | nil => simp [pyFindIdx]
  | cons x xs ih =>
    have hx : x ≠ ':' := fun he => h (by simp [he])
    have hxs : ':' ∉ xs := fun hm => h (List.mem_cons_of_mem _ hm)
    have hstep : pyFindIdx ':' ((x :: xs) ++ ':' :: post) =
        (pyFindIdx ':' (xs ++ ':' :: post)).map (· + 1) := by
      simp [pyFindIdx, hx]
    rw [hstep, ih hxs]
    rfl

/-- A line whose first colon has a nonempty prefix is split there, both
sides are stripped, and the pair is stored. -/
theorem parseLine_store (d : Dict) (pre post : List Char) (hpre : pre ≠ [])
    (h : ':' ∉ pre) :
    parseLine d (pre ++ ':' :: post) =
      dictInsert d (String.mk (pyStrip pre)) (String.mk (pyStrip post)) := by
  have hlen : 0 < pre.length := List.length_pos.2 hpre
  simp only [parseLine, pyFindIdx_append_colon pre post h]
  rw [if_pos hlen]
  have htake : (pre ++ ':' :: post).take pre.length = pre := by
    simp
  have hdrop : (pre ++ ':' :: post).drop (pre.length + 1) = post := by
    simp
  rw [htake, hdrop]

/-- Decomposition of `parse_ab_result` at an explicit newline. -/
theorem parse_ab_result_append (t1 t2 : String) :
    parse_ab_result (t1 ++ "\n" ++ t2) =
      (pySplit '\n' (t2.toList.filter (fun c => c ≠ '\r'))).foldl parseLine
        (parse_ab_result t1) := by
  unfold parse_ab_result
  rw [string_toList_append, string_toList_append]
  have hn : ("\n" : String).toList = ['\n'] := rfl
  rw [hn]
  rw [List.filter_append, List.filter_append]
  have h2 : (['\n'] : List Char).filter (fun c => c ≠ '\r') = ['\n'] := rfl
  rw [h2]
  have h3 : ((t1.toList.filter (fun c => c ≠ '\r')) ++ ['\n'] ++
      (t2.toList.filter (fun c => c ≠ '\r'))) =
      (t1.toList.filter (fun c => c ≠ '\r')) ++ '\n' ::
        (t2.toList.filter (fun c => c ≠ '\r')) := by simp
  rw [h3, pySplit_append, List.foldl_append]

/-! ## Claim theorems: the parser (C5, C10) -/

/-- C5 (counterexample): the line `": v"` contains a colon, yet `parse`
drops it entirely instead of splitting it into a (empty) field name and a
value: the `line.find(':') > 0` filter also rejects lines whose first
colon is at position 0, not only lines without a colon. -/
theorem c5_counterexample :
    ':' ∈ ": v".toList ∧ parse_ab_result ": v" = [] := by decide

/-- C5 (amended): `parse` removes carriage returns and splits the input at
newlines; a line is dropped when (after carriage-return removal) it has no
colon or its first colon is at position 0, without affecting the rest; a
line whose first colon has a nonempty prefix is split at that first colon,
both sides are trimmed, and the pair is stored with dict update semantics,
so a later duplicate field overwrites an earlier one (last write wins,
witnessed by the lookup).  No entry ever raises: the embedding of the
parser is a total function. -/
theorem c5_parse_amended :
    (∀ (t1 t2 : String) (line : List Char), '\n' ∉ line →
      (pyFindIdx ':' (line.filter (fun c => c ≠ '\r')) = none ∨
        pyFindIdx ':' (line.filter (fun c => c ≠ '\r')) = some 0) →
      parse_ab_result (t1 ++ "\n" ++ String.mk line ++ "\n" ++ t2) =
        parse_ab_result (t1 ++ "\n" ++ t2)) ∧
    (∀ (t : String) (pre post : List Char), pre ≠ [] → ':' ∉ pre →
      '\n' ∉ pre → '\r' ∉ pre → '\n' ∉ post → '\r' ∉ post →
      parse_ab_result (t ++ "\n" ++ String.mk (pre ++ ':' :: post)) =
        dictInsert (parse_ab_result t) (String.mk (pyStrip pre))
          (String.mk (pyStrip post)) ∧
      dictGet? (parse_ab_result (t ++ "\n" ++ String.mk (pre ++ ':' :: post)))
        (String.mk (pyStrip pre)) = some (String.mk (pyStrip post))) ∧
    parse_ab_result "K\r: v\r" = [("K", "v")] := by
  refine ⟨?_, ?_, by decide⟩
  · intro t1 t2 line hnl hdrop
    rw [parse_ab_result_append (t1 ++ "\n" ++ String.mk line) t2,
      parse_ab_result_append t1 t2]
    congr 1
    rw [parse_ab_result_append t1 (String.mk line)]
    have hl : (String.mk line).toList = line := rfl
    rw [hl]
    have hnl' : '\n' ∉ line.filter (fun c => c ≠ '\r') :=
      fun hm => hnl (List.mem_of_mem_filter hm)
    rw [pySplit_of_not_mem _ _ hnl']
    simp only [List.foldl_cons, List.foldl_nil]
    exact parseLine_drop _ _ hdrop
  · intro t pre post hpre hc hn1 hr1 hn2 hr2
    have hfilter : (pre ++ ':' :: post).filter (fun c => c ≠ '\r') =
        pre ++ ':' :: post := by
      rw [List.filter_eq_self]
      intro a ha
      simp only [ne_eq, decide_eq_true_eq]
      rcases List.mem_append.1 ha with h1 | h1
      · exact fun he => hr1 (he ▸ h1)
      · rcases List.mem_cons.1 h1 with rfl | h2
        · decide
        · exact fun he => hr2 (he ▸ h2)
    have hnoNl : '\n' ∉ pre ++ ':' :: post := by
      intro hm
      rcases List.mem_append.1 hm with h1 | h1
      · exact hn1 h1
      · rcases List.mem_cons.1 h1 with he | h2
        · exact absurd he (by decide)
        · exact hn2 h2
    have hA : parse_ab_result (t ++ "\n" ++ String.mk (pre ++ ':' :: post)) =
        dictInsert (parse_ab_result t) (String.mk (pyStrip pre))
          (String.mk (pyStrip post)) := by
      rw [parse_ab_result_append t (String.mk (pre ++ ':' :: post))]
      have hl : (String.mk (pre ++ ':' :: post)).toList = pre ++ ':' :: post := rfl
      rw [hl, hfilter, pySplit_of_not_mem _ _ hnoNl]
      simp only [List.foldl_cons, List.foldl_nil]
      exact parseLine_store _ pre post hpre hc
    refine ⟨hA, ?_⟩
    rw [hA]
    exact dictGet?_insert_self _ _ _

/-- C5 (witness): a colon-free line in the middle of the input is dropped
without affecting the rest, and a duplicated field name keeps the later
value. -/
theorem c5_witness :
    parse_ab_result ("A: b" ++ "\n" ++ String.mk "garbage".toList ++ "\n" ++ "C: d") =
      parse_ab_result ("A: b" ++ "\n" ++ "C: d") ∧
    dictGet? (parse_ab_result ("K: old" ++ "\n" ++ String.mk (['K'] ++ ':' :: [' ', 'v'])))
      (String.mk (pyStrip ['K'])) = some (String.mk (pyStrip [' ', 'v'])) :=
  ⟨c5_parse_amended.1 "A: b" "C: d" "garbage".toList (by decide) (Or.inl (by decide)),
   (c5_parse_amended.2.1 "K: old" ['K'] [' ', 'v'] (by decide) (by decide)
     (by decide) (by decide) (by decide) (by decide)).2⟩

/-- C10 (counterexample): a line whose first colon is preceded only by
whitespace produces an entry whose field name is the empty string, so it is
not true that no field name in the output is empty. -/
theorem c10_counterexample :
    parse_ab_result " : v" = [("", "v")] ∧
    ("" : String) ∈ (parse_ab_result " : v").map Prod.fst := by decide

/-- C10 (amended): `parse` does drop every line whose first colon is at
position 0 (in addition to lines without a colon) — a kept line always has
at least one character before its first colon — but a field name can still
be the empty string, because the text before the first colon is trimmed;
only whitespace-free emptiness is excluded. -/
theorem c10_drop_amended :
    (∀ (d : Dict) (line : List Char), pyFindIdx ':' line = some 0 →
      parseLine d line = d) ∧
    parse_ab_result ":value\nA: b" = [("A", "b")] := by
  refine ⟨fun d line h => parseLine_drop d line (Or.inr h), by decide⟩

/-- C10 (witness): the drop rule applied to the line `":v"`. -/
theorem c10_witness :
    parseLine [("A", "b")] (':' :: 'v' :: []) = [("A", "b")] :=
  c10_drop_amended.1 [("A", "b")] (':' :: 'v' :: []) (by decide)

/-! ## Helper lemmas: the registration sweep (`pyForRemove`) -/

theorem pyForRemove_step (f : WorkerId → Bool) (lst : List WorkerId)
    (i : Nat) (h : i < lst.length) :
    pyForRemove f lst i =
      if f (lst.get ⟨i, h⟩) then
        pyForRemove f (lst.erase (lst.get ⟨i, h⟩)) (i + 1)
      else pyForRemove f lst (i + 1) := by
  rw [pyForRemove, dif_pos h]

theorem pyForRemove_stop (f : WorkerId → Bool) (lst : List WorkerId)
    (i : Nat) (h : ¬i < lst.length) : pyForRemove f lst i = lst := by
  rw [pyForRemove, dif_neg h]

/-- A sweep never adds elements. -/
theorem pyForRemove_subset (f : WorkerId → Bool) (lst : List WorkerId)
    (i : Nat) : pyForRemove f lst i ⊆ lst := by
  induction lst, i using pyForRemove.induct f with
  | case1 lst i h x hx =>
    rename_i ih
    rw [pyForRemove_step f lst i h, if_pos hx]
    exact fun a ha => List.erase_subset _ _ (ih ha)
  | case2 lst i h x hx =>
    rename_i ih
    rw [pyForRemove_step f lst i h, if_neg hx]
    exact ih
  | case3 lst i h =>
    rw [pyForRemove_stop f lst i h]
    exact fun a ha => ha

/-- A sweep never removes an id whose registration field is unset. -/
theorem pyForRemove_mem_of_unreg {f : WorkerId → Bool} {a : WorkerId}
    (hf : f a = false) (lst : List WorkerId) (i : Nat) (ha : a ∈ lst) :
    a ∈ pyForRemove f lst i := by
  induction lst, i using pyForRemove.induct f with
  | case1 lst i h x hx =>
    rename_i ih
    rw [pyForRemove_step f lst i h, if_pos hx]
    apply ih
    have hne : a ≠ x := by
      intro he
      rw [he] at hf
      rw [hf] at hx
      exact absurd hx (by simp)
    exact (List.mem_erase_of_ne hne).2 ha
  | case2 lst i h x hx =>
    rename_i ih
    rw [pyForRemove_step f lst i h, if_neg hx]
    exact ih ha
  | case3 lst i h =>
    rw [pyForRemove_stop f lst i h]
    exact ha

/-- Only ids observed registered are removed by a sweep. -/
theorem pyForRemove_removed_reg {f : WorkerId → Bool} {a : WorkerId}
    {lst : List WorkerId} {i : Nat} (ha : a ∈ lst)
    (hout : a ∉ pyForRemove f lst i) : f a = true := by
  by_contra hc
  simp only [Bool.not_eq_true] at hc
  exact hout (pyForRemove_mem_of_unreg hc lst i ha)

theorem pyForRemove_length_le (f : WorkerId → Bool) (lst : List WorkerId)
    (i : Nat) : (pyForRemove f lst i).length ≤ lst.length := by
  induction lst, i using pyForRemove.induct f with
  | case1 lst i h x hx =>
    rename_i ih
    rw [pyForRemove_step f lst i h, if_pos hx]
    calc (pyForRemove f (lst.erase (lst.get ⟨i, h⟩)) (i + 1)).length
        ≤ (lst.erase (lst.get ⟨i, h⟩)).length := ih
      _ ≤ lst.length := by
          have h1 : (lst.erase (lst.get ⟨i, h⟩)).length = lst.length - 1 :=
            List.length_erase_of_mem (lst.get_mem _ _)
          omega
  | case2 lst i h x hx =>
    rename_i ih
    rw [pyForRemove_step f lst i h, if_neg hx]
    exact ih
  | case3 lst i h =>
    rw [pyForRemove_stop f lst i h]

/-- On a nonempty list whose elements are all registered, a sweep strictly
shrinks the list (the element at index 0 is removed). -/
theorem pyForRemove_progress (f : WorkerId → Bool) (lst : List WorkerId)
    (h0 : lst ≠ []) (hall : ∀ a ∈ lst, f a = true) :
    (pyForRemove f lst 0).length < lst.length := by
  have h : 0 < lst.length := List.length_pos.2 h0
  have hx : f (lst.get ⟨0, h⟩) = true := hall _ (lst.get_mem _ _)
  rw [pyForRemove_step f lst 0 h, if_pos hx]
  calc (pyForRemove f (lst.erase (lst.get ⟨0, h⟩)) 1).length
      ≤ (lst.erase (lst.get ⟨0, h⟩)).length := pyForRemove_length_le _ _ _
    _ < lst.length := by
        have h1 : (lst.erase (lst.get ⟨0, h⟩)).length = lst.length - 1 :=
          List.length_erase_of_mem (lst.get_mem _ _)
        omega

/-! ## Helper lemmas: the `wait_for_clients` polling loop -/

theorem wait_for_clients_zero (σ : Nat → WorkerId → Bool) (k : Nat)
    (r : List WorkerId) : wait_for_clients σ 0 k r = none := rfl

theorem wait_for_clients_succ (σ : Nat → WorkerId → Bool) (fuel k : Nat)
    (r : List WorkerId) :
    wait_for_clients σ (fuel + 1) k r =
      if r.isEmpty then some k
      else wait_for_clients σ fuel (k + 1) (pyForRemove (σ k) r 0) := rfl

/-- Soundness: when the loop returns, every id expected at entry was
observed registered during some sweep at or after entry. -/
theorem wait_for_clients_sound {σ : Nat → WorkerId → Bool} :
    ∀ (fuel k : Nat) (r : List WorkerId) (j : Nat),
      wait_for_clients σ fuel k r = some j →
      ∀ a ∈ r, ∃ m, k ≤ m ∧ σ m a = true := by
  intro fuel
  induction fuel with
  | zero =>
    intro k r j h
    rw [wait_for_clients_zero] at h
    exact absurd h (by simp)
  | succ fuel ih =>
    intro k r j h a ha
    rw [wait_for_clients_succ] at h
    by_cases he : r.isEmpty
    · rw [List.isEmpty_iff] at he
      subst he
      exact absurd ha (by simp)
    · rw [if_neg he] at h
      by_cases hm : a ∈ pyForRemove (σ k) r 0
      · rcases ih (k + 1) _ j h a hm with ⟨m, hkm, hreg⟩
        exact ⟨m, by omega, hreg⟩
      · exact ⟨k, le_refl k, pyForRemove_removed_reg ha hm⟩

theorem iterRem_shift (σ : Nat → WorkerId → Bool) (k : Nat)
    (r : List WorkerId) :
    ∀ j, iterRem σ (k + 1) (pyForRemove (σ k) r 0) j = iterRem σ k r (j + 1) := by
  intro j
  induction j with
  | zero =>
    show pyForRemove (σ k) r 0 = pyForRemove (σ (k + 0)) (iterRem σ k r 0) 0
    rw [Nat.add_zero]
    rfl
  | succ j ih =>
    show pyForRemove (σ (k + 1 + j)) (iterRem σ (k + 1) (pyForRemove (σ k) r 0) j) 0 =
      pyForRemove (σ (k + (j + 1))) (iterRem σ k r (j + 1)) 0
    rw [ih]
    have harith : k + 1 + j = k + (j + 1) := by omega
    rw [harith]

theorem iterRem_subset (σ : Nat → WorkerId → Bool) (k : Nat)
    (r : List WorkerId) : ∀ j, iterRem σ k r j ⊆ r := by
  intro j
  induction j with
  | zero => exact fun a ha => ha
  | succ j ih => exact fun a ha => ih (pyForRemove_subset _ _ _ ha)

/-- Running the loop past `a` non-returning sweeps. -/
theorem wait_for_clients_skip {σ : Nat → WorkerId → Bool} :
    ∀ (a f k : Nat) (r : List WorkerId),
      (∀ i, i < a → iterRem σ k r i ≠ []) →
      wait_for_clients σ (a + f) k r =
        wait_for_clients σ f (k + a) (iterRem σ k r a) := by
  intro a
  induction a with
  | zero =>
    intro f k r _
    show wait_for_clients σ (0 + f) k r = wait_for_clients σ f (k + 0) r
    rw [Nat.zero_add, Nat.add_zero]
  | succ a ih =>
    intro f k r hne
    have h0 : r ≠ [] := hne 0 (by omega)
    have h0' : ¬r.isEmpty = true := by
      simp [List.isEmpty_iff, h0]
    have harith : a + 1 + f = (a + f) + 1 := by omega
    rw [harith, wait_for_clients_succ, if_neg h0']
    have hne' : ∀ i, i < a → iterRem σ (k + 1) (pyForRemove (σ k) r 0) i ≠ [] := by
      intro i hi
      rw [iterRem_shift]
      exact hne (i + 1) (by omega)
    rw [ih f (k + 1) (pyForRemove (σ k) r 0) hne']
    rw [iterRem_shift]
    have harith2 : k + 1 + a = k + (a + 1) := by omega
    rw [harith2]

/-- Termination under a fixed fully-registered suffix of the store: once
every still-expected id reads as registered, `length + 1` more sweeps
suffice. -/
theorem wait_for_clients_complete {σ : Nat → WorkerId → Bool}
    (mono : ∀ m a, σ m a = true → σ (m + 1) a = true) :
    ∀ (n k : Nat) (r : List WorkerId), r.length ≤ n →
      (∀ a ∈ r, σ k a = true) →
      ∃ j, wait_for_clients σ (n + 1) k r = some j := by
  intro n
  induction n with
  | zero =>
    intro k r hlen _
    have hr : r = [] := List.eq_nil_of_length_eq_zero (by omega)
    subst hr
    exact ⟨k, rfl⟩
  | succ n ih =>
    intro k r hlen hreg
    by_cases hr : r = []
    · subst hr
      exact ⟨k, rfl⟩
    · have h0' : ¬r.isEmpty = true := by
        simp [List.isEmpty_iff, hr]
      have hprog : (pyForRemove (σ k) r 0).length < r.length :=
        pyForRemove_progress (σ k) r hr hreg
      have hreg' : ∀ a ∈ pyForRemove (σ k) r 0, σ (k + 1) a = true :=
        fun a ha => mono k a (hreg a (pyForRemove_subset _ _ _ ha))
      rcases ih (k + 1) (pyForRemove (σ k) r 0) (by omega) hreg' with ⟨j, hj⟩
      refine ⟨j, ?_⟩
      rw [wait_for_clients_succ, if_neg h0']
      exact hj

/-- If the iterated sweep empties the remaining list within `a` sweeps, the
loop returns with fuel `a + 1`. -/
theorem wait_for_clients_of_iter_empty {σ : Nat → WorkerId → Bool} :
    ∀ (a k : Nat) (r : List WorkerId), iterRem σ k r a = [] →
      ∃ j, wait_for_clients σ (a + 1) k r = some j := by
  intro a
  induction a with
  | zero =>
    intro k r hr
    have : r = [] := hr
    subst this
    exact ⟨k, rfl⟩
  | succ a ih =>
    intro k r hr
    by_cases h0 : r = []
    · subst h0
      exact ⟨k, rfl⟩
    · have h0' : ¬r.isEmpty = true := by
        simp [List.isEmpty_iff, h0]
      have hshift : iterRem σ (k + 1) (pyForRemove (σ k) r 0) a = [] := by
        rw [iterRem_shift]
        exact hr
      rcases ih (k + 1) (pyForRemove (σ k) r 0) hshift with ⟨j, hj⟩
      refine ⟨j, ?_⟩
      rw [wait_for_clients_succ, if_neg h0']
      exact hj

/-- As long as some expected id is never registered, the loop never
returns, whatever the fuel. -/
theorem wait_for_clients_never {σ : Nat → WorkerId → Bool} {a : WorkerId}
    (hnever : ∀ j, σ j a = false) :
    ∀ (fuel k : Nat) (r : List WorkerId), a ∈ r →
      wait_for_clients σ fuel k r = none := by
  intro fuel
  induction fuel with
  | zero => intro k r _; rfl
  | succ fuel ih =>
    intro k r ha
    have h0' : ¬r.isEmpty = true := by
      simp only [List.isEmpty_iff]
      intro hr
      subst hr
      exact absurd ha (by simp)
    rw [wait_for_clients_succ, if_neg h0']
    exact ih (k + 1) _ (pyForRemove_mem_of_unreg (hnever k) r 0 ha)

/-! ## Claim theorem: `wait_for_clients` (C2) -/

/-- C2: over every monotone interleaving of registration writes (modelled
as one store snapshot per sweep, with writes never retracted), the polling
loop `wait_for_clients` (a) returns, with enough fuel, once every expected
id has been written; (b) returns only if every expected id was observed
written at least once; and (c) never returns, whatever the fuel, while
some expected id remains unwritten forever. -/
theorem c2_wait_for_clients (σ : Nat → WorkerId → Bool)
    (mono : ∀ m a, σ m a = true → σ (m + 1) a = true)
    (ids : List WorkerId) :
    ((∃ N, ∀ id ∈ ids, σ N id = true) →
      ∃ fuel j, wait_for_clients σ fuel 0 ids = some j) ∧
    (∀ fuel j, wait_for_clients σ fuel 0 ids = some j →
      ∀ id ∈ ids, ∃ m, σ m id = true) ∧
    ((∃ id, id ∈ ids ∧ ∀ j, σ j id = false) →
      ∀ fuel, wait_for_clients σ fuel 0 ids = none) := by
  refine ⟨?_, ?_, ?_⟩
  · rintro ⟨N, hN⟩
    by_cases hx : ∃ i, i ≤ N ∧ iterRem σ 0 ids i = []
    · rcases hx with ⟨i, _, hie⟩
      rcases wait_for_clients_of_iter_empty i 0 ids hie with ⟨j, hj⟩
      exact ⟨i + 1, j, hj⟩
    · push_neg at hx
      have hne : ∀ i, i < N → iterRem σ 0 ids i ≠ [] :=
        fun i hi => hx i (by omega)
      have hsub : iterRem σ 0 ids N ⊆ ids := iterRem_subset σ 0 ids N
      have hreg : ∀ a ∈ iterRem σ 0 ids N, σ N a = true :=
        fun a ha => hN a (hsub ha)
      have hskip := wait_for_clients_skip N ((iterRem σ 0 ids N).length + 1)
        0 ids hne
      rw [Nat.zero_add] at hskip
      rcases wait_for_clients_complete mono (iterRem σ 0 ids N).length N
        (iterRem σ 0 ids N) (le_refl _) hreg with ⟨j, hj⟩
      exact ⟨N + ((iterRem σ 0 ids N).length + 1), j, by rw [hskip]; exact hj⟩
  · intro fuel j h id hid
    rcases wait_for_clients_sound fuel 0 ids j h id hid with ⟨m, _, hreg⟩
    exact ⟨m, hreg⟩
  · rintro ⟨id, hid, hnever⟩ fuel
    exact wait_for_clients_never hnever fuel 0 ids hid

/-- C2 (witness): the loop theorem on a store where every id is registered
from the first sweep. -/
theorem c2_witness :
    ((∃ N, ∀ id ∈ ["i-1", "i-2"], regStoreAll N id = true) →
      ∃ fuel j, wait_for_clients regStoreAll fuel 0 ["i-1", "i-2"] = some j) ∧
    (∀ fuel j, wait_for_clients regStoreAll fuel 0 ["i-1", "i-2"] = some j →
      ∀ id ∈ ["i-1", "i-2"], ∃ m, regStoreAll m id = true) ∧
    ((∃ id, id ∈ ["i-1", "i-2"] ∧ ∀ j, regStoreAll j id = false) →
      ∀ fuel, wait_for_clients regStoreAll fuel 0 ["i-1", "i-2"] = none) :=
  c2_wait_for_clients regStoreAll (fun _ _ h => h) ["i-1", "i-2"]

/-! ## Helper lemmas: the result sweep (`pyForRemoveRes`) -/

theorem pyForRemoveRes_step (store : WorkerId → Option String)
    (lst : List WorkerId) (acc : List (WorkerId × Dict)) (i : Nat)
    (h : i < lst.length) :
    pyForRemoveRes store lst acc i =
      match store (lst.get ⟨i, h⟩) with
      | some raw =>
        pyForRemoveRes store (lst.erase (lst.get ⟨i, h⟩))
          (dictInsert acc (lst.get ⟨i, h⟩) (parse_ab_result raw)) (i + 1)
      | none => pyForRemoveRes store lst acc (i + 1) := by
  rw [pyForRemoveRes, dif_pos h]

theorem pyForRemoveRes_stop (store : WorkerId → Option String)
    (lst : List WorkerId) (acc : List (WorkerId × Dict)) (i : Nat)
    (h : ¬i < lst.length) : pyForRemoveRes store lst acc i = (lst, acc) := by
  rw [pyForRemoveRes, dif_neg h]

/-- The remaining-ids component of the result sweep evolves exactly as the
registration sweep with `isSome ∘ store` as the registration test. -/
theorem pyForRemoveRes_fst (store : WorkerId → Option String) :
    ∀ (lst : List WorkerId) (acc : List (WorkerId × Dict)) (i : Nat),
      (pyForRemoveRes store lst acc i).1 =
        pyForRemove (fun x => (store x).isSome) lst i := by
  intro lst acc i
  induction lst, acc, i using pyForRemoveRes.induct store with
  | case1 lst acc i h x raw hraw =>
    rename_i ih
    rw [pyForRemoveRes_step store lst acc i h]
    simp only [hraw]
    rw [ih]
    rw [pyForRemove_step _ lst i h, if_pos (by rw [hraw]; rfl)]
  | case2 lst acc i h x hraw =>
    rename_i ih
    rw [pyForRemoveRes_step store lst acc i h]
    simp only [hraw]
    rw [ih]
    rw [pyForRemove_step _ lst i h, if_neg (by rw [hraw]; simp)]
  | case3 lst acc i h =>
    rw [pyForRemoveRes_stop store lst acc i h, pyForRemove_stop _ lst i h]

theorem pyForRemove_nodup (f : WorkerId → Bool) :
    ∀ (lst : List WorkerId) (i : Nat), lst.Nodup →
      (pyForRemove f lst i).Nodup := by
  intro lst i
  induction lst, i using pyForRemove.induct f with
  | case1 lst i h x hx =>
    rename_i ih
    intro hnd
    rw [pyForRemove_step f lst i h, if_pos hx]
    exact ih (hnd.erase _)
  | case2 lst i h x hx =>
    rename_i ih
    intro hnd
    rw [pyForRemove_step f lst i h, if_neg hx]
    exact ih hnd
  | case3 lst i h =>
    intro hnd
    rw [pyForRemove_stop f lst i h]
    exact hnd

/-- Keys accumulated plus ids still outstanding are a permutation of the
keys and ids at entry to the sweep. -/
theorem pyForRemoveRes_perm (store : WorkerId → Option String) :
    ∀ (lst : List WorkerId) (acc : List (WorkerId × Dict)) (i : Nat),
      lst.Nodup → (∀ kv ∈ acc, kv.1 ∉ lst) →
      ((pyForRemoveRes store lst acc i).2.map Prod.fst ++
        (pyForRemoveRes store lst acc i).1).Perm
        (acc.map Prod.fst ++ lst) := by
  intro lst acc i
  induction lst, acc, i using pyForRemoveRes.induct store with
  | case1 lst acc i h x raw hraw =>
    rename_i ih
    intro hnd hdis
    have hxmem : x ∈ lst := lst.get_mem _ _
    have hkx : ∀ kv ∈ acc, kv.1 ≠ x :=
      fun kv hkv he => hdis kv hkv (he ▸ hxmem)
    have hnd' : (lst.erase x).Nodup := hnd.erase _
    have hdis' : ∀ kv ∈ dictInsert acc x (parse_ab_result raw),
        kv.1 ∉ lst.erase x := by
      intro kv hkv hmem
      rcases mem_dictInsert hkv with hin | rfl
      · exact hdis kv hin (List.erase_subset _ _ hmem)
      · rw [List.Nodup.mem_erase_iff hnd] at hmem
        exact hmem.1 rfl
    have hstep := ih hnd' hdis'
    rw [pyForRemoveRes_step store lst acc i h]
    simp only [hraw]
    refine hstep.trans ?_
    rw [map_fst_dictInsert_of_not_mem _ hkx]
    have hassoc : (acc.map Prod.fst ++ [x]) ++ lst.erase x =
        acc.map Prod.fst ++ (x :: lst.erase x) := by
      rw [List.append_assoc]
      rfl
    rw [hassoc]
    exact List.Perm.append_left _ (List.perm_cons_erase hxmem).symm
  | case2 lst acc i h x hraw =>
    rename_i ih
    intro hnd hdis
    rw [pyForRemoveRes_step store lst acc i h]
    simp only [hraw]
    exact ih hnd hdis
  | case3 lst acc i h =>
    intro hnd hdis
    rw [pyForRemoveRes_stop store lst acc i h]

/-- Keys accumulated by the sweep stay disjoint from the outstanding ids. -/
theorem pyForRemoveRes_disjoint (store : WorkerId → Option String) :
    ∀ (lst : List WorkerId) (acc : List (WorkerId × Dict)) (i : Nat),
      lst.Nodup → (∀ kv ∈ acc, kv.1 ∉ lst) →
      ∀ kv ∈ (pyForRemoveRes store lst acc i).2,
        kv.1 ∉ (pyForRemoveRes store lst acc i).1 := by
  intro lst acc i
  induction lst, acc, i using pyForRemoveRes.induct store with
  | case1 lst acc i h x raw hraw =>
    rename_i ih
    intro hnd hdis
    have hxmem : x ∈ lst := lst.get_mem _ _
    have hnd' : (lst.erase x).Nodup := hnd.erase _
    have hdis' : ∀ kv ∈ dictInsert acc x (parse_ab_result raw),
        kv.1 ∉ lst.erase x := by
      intro kv hkv hmem
      rcases mem_dictInsert hkv with hin | rfl
      · exact hdis kv hin (List.erase_subset _ _ hmem)
      · rw [List.Nodup.mem_erase_iff hnd] at hmem
        exact hmem.1 rfl
    rw [pyForRemoveRes_step store lst acc i h]
    simp only [hraw]
    exact ih hnd' hdis'
  | case2 lst acc i h x hraw =>
    rename_i ih
    intro hnd hdis
    rw [pyForRemoveRes_step store lst acc i h]
    simp only [hraw]
    exact ih hnd hdis
  | case3 lst acc i h =>
    intro hnd hdis
    rw [pyForRemoveRes_stop store lst acc i h]
    exact hdis

/-- Every entry the sweep adds is the parse of a raw text present on the
store during the sweep. -/
theorem pyForRemoveRes_values (store : WorkerId → Option String) :
    ∀ (lst : List WorkerId) (acc : List (WorkerId × Dict)) (i : Nat),
      ∀ kv ∈ (pyForRemoveRes store lst acc i).2,
        kv ∈ acc ∨ ∃ raw, store kv.1 = some raw ∧
          kv.2 = parse_ab_result raw := by
  intro lst acc i
  induction lst, acc, i using pyForRemoveRes.induct store with
  | case1 lst acc i h x raw hraw =>
    rename_i ih
    intro kv hkv
    rw [pyForRemoveRes_step store lst acc i h] at hkv
    simp only [hraw] at hkv
    rcases ih kv hkv with hin | hnew
    · rcases mem_dictInsert hin with hin' | rfl
      · exact Or.inl hin'
      · exact Or.inr ⟨raw, hraw, rfl⟩
    · exact Or.inr hnew
  | case2 lst acc i h x hraw =>
    rename_i ih
    intro kv hkv
    rw [pyForRemoveRes_step store lst acc i h] at hkv
    simp only [hraw] at hkv
    exact ih kv hkv
  | case3 lst acc i h =>
    intro kv hkv
    rw [pyForRemoveRes_stop store lst acc i h] at hkv
    exact Or.inl hkv

/-! ## Helper lemmas: the `wait_for_results` polling loop -/

theorem wait_for_results_zero (σ : Nat → WorkerId → Option String) (k : Nat)
    (r : List WorkerId) (acc : List (WorkerId × Dict)) :
    wait_for_results σ 0 k r acc = none := rfl

theorem wait_for_results_succ (σ : Nat → WorkerId → Option String)
    (fuel k : Nat) (r : List WorkerId) (acc : List (WorkerId × Dict)) :
    wait_for_results σ (fuel + 1) k r acc =
      if r.isEmpty then some acc
      else wait_for_results σ fuel (k + 1) (pyForRemoveRes (σ k) r acc 0).1
        (pyForRemoveRes (σ k) r acc 0).2 := rfl

/-- Soundness of the result loop: on return, the keys of the returned dict
are a permutation of the accumulated keys plus the ids expected at entry,
and every returned entry is the parse of a raw text observed on the
store. -/
theorem wait_for_results_sound (σ : Nat → WorkerId → Option String) :
    ∀ (fuel k : Nat) (r : List WorkerId) (acc : List (WorkerId × Dict))
      (m : List (WorkerId × Dict)),
      wait_for_results σ fuel k r acc = some m →
      r.Nodup → (∀ kv ∈ acc, kv.1 ∉ r) →
      (m.map Prod.fst).Perm (acc.map Prod.fst ++ r) ∧
      (∀ kv ∈ m, kv ∈ acc ∨ ∃ j raw, σ j kv.1 = some raw ∧
        kv.2 = parse_ab_result raw) := by
  intro fuel
  induction fuel with
  | zero =>
    intro k r acc m h
    rw [wait_for_results_zero] at h
    exact absurd h (by simp)
  | succ fuel ih =>
    intro k r acc m h hnd hdis
    rw [wait_for_results_succ] at h
    by_cases he : r.isEmpty
    · rw [if_pos he] at h
      rw [List.isEmpty_iff] at he
      subst he
      have hm : acc = m := by
        injection h
      subst hm
      exact ⟨by simp, fun kv hkv => Or.inl hkv⟩
    · rw [if_neg he] at h
      have hnd' : (pyForRemoveRes (σ k) r acc 0).1.Nodup := by
        rw [pyForRemoveRes_fst]
        exact pyForRemove_nodup _ r 0 hnd
      have hdis' := pyForRemoveRes_disjoint (σ k) r acc 0 hnd hdis
      rcases ih (k + 1) _ _ m h hnd' hdis' with ⟨hperm, hval⟩
      constructor
      · exact hperm.trans (pyForRemoveRes_perm (σ k) r acc 0 hnd hdis)
      · intro kv hkv
        rcases hval kv hkv with hin | hnew
        · rcases pyForRemoveRes_values (σ k) r acc 0 kv hin with hin' | hnew'
          · exact Or.inl hin'
          · rcases hnew' with ⟨raw, hraw, hv⟩
            exact Or.inr ⟨k, raw, hraw, hv⟩
        · exact Or.inr hnew

/-- The result loop returns exactly when the registration-style loop over
`isSome ∘ store` returns. -/
theorem wait_for_results_isSome (σ : Nat → WorkerId → Option String) :
    ∀ (fuel k : Nat) (r : List WorkerId) (acc : List (WorkerId × Dict)),
      (wait_for_results σ fuel k r acc).isSome =
        (wait_for_clients (fun m x => (σ m x).isSome) fuel k r).isSome := by
  intro fuel
  induction fuel with
  | zero => intro k r acc; rfl
  | succ fuel ih =>
    intro k r acc
    rw [wait_for_results_succ, wait_for_clients_succ]
    by_cases he : r.isEmpty
    · rw [if_pos he, if_pos he]
      rfl
    · rw [if_neg he, if_neg he]
      rw [pyForRemoveRes_fst]
      exact ih (k + 1) _ _

/-! ## Claim theorems: `wait_for_results` (C3) -/

/-- C3 (counterexample): two stores on which worker `w` submitted
different raw texts produce the same returned map, so the returned map does
not contain the raw submitted text: the loop stores
`parse_ab_result(raw)`, not `raw`, and parsing is not injective. -/
theorem c3_counterexample :
    resStoreA 0 "w" ≠ resStoreB 0 "w" ∧
    wait_for_results resStoreA 2 0 ["w"] [] =
      wait_for_results resStoreB 2 0 ["w"] [] ∧
    wait_for_results resStoreA 2 0 ["w"] [] =
      some [("w", [("Foo", "Bar")])] := by
  have hemp : (["w"] : List WorkerId).isEmpty = false := rfl
  have hlt : 0 < (["w"] : List WorkerId).length := by decide
  have hA : wait_for_results resStoreA 2 0 ["w"] [] =
      some [("w", [("Foo", "Bar")])] := by
    rw [wait_for_results_succ, hemp]
    simp only [Bool.false_eq_true, if_false]
    have hsweep : pyForRemoveRes (resStoreA 0) ["w"] [] 0 =
        ([], [("w", [("Foo", "Bar")])]) := by
      rw [pyForRemoveRes_step (resStoreA 0) ["w"] [] 0 hlt]
      have hget : (["w"] : List WorkerId).get ⟨0, hlt⟩ = "w" := rfl
      rw [hget]
      have hstore : resStoreA 0 "w" = some "Foo: Bar" := by decide
      simp only [hstore]
      have herase : (["w"] : List WorkerId).erase "w" = [] := by decide
      have hins : dictInsert ([] : List (WorkerId × Dict)) "w"
          (parse_ab_result "Foo: Bar") = [("w", [("Foo", "Bar")])] := by decide
      rw [herase, hins]
      exact pyForRemoveRes_stop _ _ _ _ (by decide)
    rw [hsweep, wait_for_results_succ]
    rfl
  have hB : wait_for_results resStoreB 2 0 ["w"] [] =
      some [("w", [("Foo", "Bar")])] := by
    rw [wait_for_results_succ, hemp]
    simp only [Bool.false_eq_true, if_false]
    have hsweep : pyForRemoveRes (resStoreB 0) ["w"] [] 0 =
        ([], [("w", [("Foo", "Bar")])]) := by
      rw [pyForRemoveRes_step (resStoreB 0) ["w"] [] 0 hlt]
      have hget : (["w"] : List WorkerId).get ⟨0, hlt⟩ = "w" := rfl
      rw [hget]
      have hstore : resStoreB 0 "w" = some "Foo:  Bar " := by decide
      simp only [hstore]
      have herase : (["w"] : List WorkerId).erase "w" = [] := by decide
      have hins : dictInsert ([] : List (WorkerId × Dict)) "w"
          (parse_ab_result "Foo:  Bar ") = [("w", [("Foo", "Bar")])] := by
        decide
      rw [herase, hins]
      exact pyForRemoveRes_stop _ _ _ _ (by decide)
    rw [hsweep, wait_for_results_succ]
    rfl
  refine ⟨by decide, ?_, hA⟩
  rw [hA, hB]

/-- C3 (amended): for a set of distinct expected ids over a write-once
store, when `wait_for_results` returns a map it has exactly one entry per
expected id (its keys are a permutation of the expected ids, so ids outside
the expected set never appear), and each entry is the parsed field map of a
raw text the worker submitted; the loop returns, with enough fuel, once
every expected id has a result entry, and never returns while some
expected id has none. -/
theorem c3_wait_for_results (σ : Nat → WorkerId → Option String)
    (ids : List WorkerId) (hnd : ids.Nodup)
    (mono : ∀ m a raw, σ m a = some raw → σ (m + 1) a = some raw) :
    (∀ fuel m, wait_for_results σ fuel 0 ids [] = some m →
      (m.map Prod.fst).Perm ids ∧
      (∀ kv ∈ m, ∃ j raw, σ j kv.1 = some raw ∧
        kv.2 = parse_ab_result raw) ∧
      (∀ kv ∈ m, kv.1 ∈ ids)) ∧
    ((∃ N, ∀ id ∈ ids, (σ N id).isSome = true) →
      ∃ fuel m, wait_for_results σ fuel 0 ids [] = some m) ∧
    ((∃ id, id ∈ ids ∧ ∀ j, σ j id = none) →
      ∀ fuel, wait_for_results σ fuel 0 ids [] = none) := by
  refine ⟨?_, ?_, ?_⟩
  · intro fuel m h
    rcases wait_for_results_sound σ fuel 0 ids [] m h hnd
      (fun kv hkv => absurd hkv (by simp)) with ⟨hperm, hval⟩
    simp only [List.map_nil, List.nil_append] at hperm
    refine ⟨hperm, ?_, ?_⟩
    · intro kv hkv
      rcases hval kv hkv with hin | hnew
      · exact absurd hin (by simp)
      · exact hnew
    · intro kv hkv
      have : kv.1 ∈ m.map Prod.fst := List.mem_map_of_mem Prod.fst hkv
      exact hperm.mem_iff.1 this
  · rintro ⟨N, hN⟩
    have mono' : ∀ m a, (fun m x => (σ m x).isSome) m a = true →
        (fun m x => (σ m x).isSome) (m + 1) a = true := by
      intro m a h
      simp only [Option.isSome_iff_exists] at h ⊢
      rcases h with ⟨raw, hraw⟩
      exact ⟨raw, mono m a raw hraw⟩
    rcases (c2_wait_for_clients (fun m x => (σ m x).isSome) mono' ids).1
      ⟨N, hN⟩ with ⟨fuel, j, hj⟩
    have hs := wait_for_results_isSome σ fuel 0 ids []
    rw [hj] at hs
    simp only [Option.isSome_some] at hs
    rcases Option.isSome_iff_exists.1 hs with ⟨m, hm⟩
    exact ⟨fuel, m, hm⟩
  · rintro ⟨id, hid, hnone⟩ fuel
    have hnever : ∀ j, (fun m x => (σ m x).isSome) j id = false := by
      intro j
      show (σ j id).isSome = false
      rw [hnone j]
      rfl
    have hc := @wait_for_clients_never (fun m x => (σ m x).isSome) id hnever fuel 0 ids hid
    have hs := wait_for_results_isSome σ fuel 0 ids []
    rw [hc] at hs
    simp only [Option.isSome_none] at hs
    rcases hw : wait_for_results σ fuel 0 ids [] with _ | m
    · rfl
    · rw [hw] at hs
      exact absurd hs (by simp)

/-- C3 (witness): the result-loop theorem on a store where worker `w` has
submitted from the first sweep. -/
theorem c3_witness :
    (∀ fuel m, wait_for_results resStoreA fuel 0 ["w"] [] = some m →
      (m.map Prod.fst).Perm ["w"] ∧
      (∀ kv ∈ m, ∃ j raw, resStoreA j kv.1 = some raw ∧
        kv.2 = parse_ab_result raw) ∧
      (∀ kv ∈ m, kv.1 ∈ ["w"])) ∧
    ((∃ N, ∀ id ∈ ["w"], (resStoreA N id).isSome = true) →
      ∃ fuel m, wait_for_results resStoreA fuel 0 ["w"] [] = some m) ∧
    ((∃ id, id ∈ ["w"] ∧ ∀ j, resStoreA j id = none) →
      ∀ fuel, wait_for_results resStoreA fuel 0 ["w"] [] = none) :=
  c3_wait_for_results resStoreA ["w"] (by decide) (fun _ _ _ h => h)

/-! ## Helper lemmas and claim theorem: the fleet ledger (C8) -/

theorem dictGet?_filter_ne {β : Type} (d : List (String × β)) (k : String) :
    dictGet? (d.filter (fun kv => kv.1 != k)) k = none := by
  have hfind : List.find? (fun kv => kv.1 == k)
      (d.filter (fun kv => kv.1 != k)) = none := by
    rw [List.find?_eq_none]
    intro x hx
    have hne := (List.mem_filter.1 hx).2
    simp only [bne_iff_ne, ne_eq] at hne
    simp [hne]
  unfold dictGet?
  rw [hfind]
  rfl

/-- C8: after `track(id, type)` at time `t0`, an `untrack(id)` at time
`t0 + E` removes the record from the open map (it is no longer found
there), and appends exactly one closed record with `elapsed = E` and
`price = E * hourlyRate(type) / 3600`; an `untrack` for an id with no open
record is a no-op; and an instance type absent from the cached pricing
table has hourly rate 0, so its closing price is 0 rather than a failure. -/
theorem c8_ledger (pm : PriceManager) (t0 E : ℚ) (iid ity : String) :
    ((pm.track t0 iid ity).untrack (t0 + E) iid)._instances =
      (pm.track t0 iid ity)._instances.filter (fun kv => kv.1 != iid) ∧
    dictGet? (((pm.track t0 iid ity).untrack (t0 + E) iid)._instances) iid =
      none ∧
    ((pm.track t0 iid ity).untrack (t0 + E) iid)._costs =
      pm._costs ++
        [⟨iid, ity, t0, some (t0 + E), E,
          E * pm.get_instance_price ity / 3600⟩] ∧
    (dictGet? pm._instances iid = none → pm.untrack (t0 + E) iid = pm) ∧
    (∀ ty, dictGet? (dictGetD pm._cached_prices pm.region []) ty = none →
      pm.get_instance_price ty = 0) := by
  have hreg : dictGet? (pm.track t0 iid ity)._instances iid =
      some ⟨iid, ity, t0, none, 0, 0⟩ := by
    unfold PriceManager.track
    exact dictGet?_insert_self _ _ _
  have hun : (pm.track t0 iid ity).untrack (t0 + E) iid =
      { pm.track t0 iid ity with
        _instances :=
          (pm.track t0 iid ity)._instances.filter (fun kv => kv.1 != iid),
        _costs := (pm.track t0 iid ity)._costs ++
          [⟨iid, ity, t0, some (t0 + E), (t0 + E) - t0,
            ((t0 + E) - t0) *
              (pm.track t0 iid ity).get_instance_price ity / 3600⟩] } := by
    unfold PriceManager.untrack
    rw [hreg]
  refine ⟨?_, ?_, ?_, ?_, ?_⟩
  · rw [hun]
  · rw [hun]
    exact dictGet?_filter_ne _ _
  · rw [hun]
    have hc : (pm.track t0 iid ity)._costs = pm._costs := rfl
    have hp : (pm.track t0 iid ity).get_instance_price ity =
        pm.get_instance_price ity := rfl
    rw [hc, hp]
    have he : (t0 + E) - t0 = E := by ring
    rw [he]
  · intro h
    unfold PriceManager.untrack
    rw [h]
  · intro ty h
    unfold PriceManager.get_instance_price
    unfold dictGetD at h ⊢
    rw [h]
    rfl

/-- C8 (witness): the ledger theorem on a concrete ledger with a priced
`m1.small`: one closed record with the computed price, a no-op `untrack` of
an unknown id, and rate 0 for an unknown instance type. -/
theorem c8_witness :
    ((pmSample.track 0 "i-1" "m1.small").untrack (0 + 100) "i-1")._costs =
      pmSample._costs ++
        [⟨"i-1", "m1.small", 0, some (0 + 100), 100,
          100 * pmSample.get_instance_price "m1.small" / 3600⟩] ∧
    pmSample.untrack (0 + 100) "missing" = pmSample ∧
    pmSample.get_instance_price "cc2.8xlarge" = 0 :=
  ⟨(c8_ledger pmSample 0 100 "i-1" "m1.small").2.2.1,
   (c8_ledger pmSample 0 100 "missing" "m1.small").2.2.2.1 rfl,
   (c8_ledger pmSample 0 100 "i-1" "m1.small").2.2.2.2 "cc2.8xlarge" (by decide)⟩

end Stormbench
